import Mathlib

/-!
Shallow embedding of the `TreeDrawing` binary-tree layout engine
(`src/TreeDrawing.h`), together with models of the layout routines whose
declarations appear in the header and whose bodies live in the
implementation file that is not part of the visible sources.  Coordinates
are modelled as rationals: the layout arithmetic only ever adds, halves,
takes maxima of and compares values.
-/

namespace TreeDrawing

/-- Radius of each node.  The header states "Every node has unit
diameter", so the radius is one half. -/
def kNodeRadius : ℚ := 1 / 2

/-- Intended spacing between nodes on the same level, measured from the
center of one node to the center of the next: "two diameters of a node"
per the header, i.e. 2. -/
def kMinSeparation : ℚ := 2

/-- Modelled from the spec: vertical spacing between adjacent levels.
The visible sources declare `kVerticalSpacing` but do not give its value;
every claim depends only on it being one fixed constant, so we pick 1. -/
def kVerticalSpacing : ℚ := 1

/-- A 2-D point (`GPoint` of the Stanford graphics library).  A
default-constructed `GPoint{}` is the origin. -/
structure GPoint where
  x : ℚ
  y : ℚ
  deriving DecidableEq

/-- An axis-aligned rectangle (`GRectangle`): origin plus extents. -/
structure GRectangle where
  x : ℚ
  y : ℚ
  width : ℚ
  height : ℚ
  deriving DecidableEq

/-- The caller's tree: any node type with `left`/`right` child pointers
and `nullptr` for missing nodes.  `α` stands for whatever data fields the
node type carries besides the two links; `nil` is the null pointer. -/
inductive BTree (α : Type) : Type where
  | nil : BTree α
  | node (val : α) (left right : BTree α) : BTree α
  deriving DecidableEq

/-- Internal snapshot node (`struct Node` of the header): left and right
children, a deferred label producer (`std::function<std::string()>`), and
a position, default-initialised to the origin. -/
inductive SnapNode : Type where
  | nil : SnapNode
  | node (left right : SnapNode) (label : Unit → String) (position : GPoint) : SnapNode

/-- Labeler: a function from a node to the string used to label it.  In
the source it receives the `NodeType*` pointer, i.e. the node itself, so
here it receives the whole `BTree` node. -/
def Labeler (α : Type) : Type := BTree α → String

/-- Translation of `convert` (header, lines 114-124): null input yields
null output; otherwise convert the left and right children recursively
and wrap them in a new snapshot node whose label producer is the closure
`[=] () { return labeler(root); }` (it captures the labeler and the
original node without applying them) and whose position is the empty
`GPoint{}`. -/
def convert {α : Type} : BTree α → Labeler α → SnapNode
  | .nil, _ => .nil
  | .node v l r, lab =>
      .node (convert l lab) (convert r lab)
        (fun _ => lab (.node v l r)) ⟨0, 0⟩

/-- Instrumented variant of `convert` that additionally returns the
number of times `convert` itself applies the labeler while building the
snapshot.  Tracing the source: the only occurrence of the labeler in the
body of `convert` is inside the stored closure, which `convert` builds
but never invokes, so no branch contributes to the count. -/
def convertCounting {α : Type} : BTree α → Labeler α → SnapNode × Nat
  | .nil, _ => (.nil, 0)
  | .node v l r, lab =>
      let pl := convertCounting l lab
      let pr := convertCounting r lab
      (.node pl.1 pr.1 (fun _ => lab (.node v l r)) ⟨0, 0⟩, pl.2 + pr.2)

/-- Number of nodes of the caller's tree. -/
def sizeB {α : Type} : BTree α → Nat
  | .nil => 0
  | .node _ l r => 1 + sizeB l + sizeB r

/-- Number of nodes of a snapshot tree. -/
def size : SnapNode → Nat
  | .nil => 0
  | .node l r _ _ => 1 + size l + size r

/-- All node subtrees of the caller's tree, in preorder.  Each entry is
what the labeler receives for the corresponding node. -/
def subtreesOf {α : Type} : BTree α → List (BTree α)
  | .nil => []
  | .node v l r => .node v l r :: (subtreesOf l ++ subtreesOf r)

/-- The label strings of a snapshot, in preorder, obtained by invoking
each stored label producer once. -/
def labelsOf : SnapNode → List String
  | .nil => []
  | .node l r lab _ => lab () :: (labelsOf l ++ labelsOf r)

/-- The positions stored in a snapshot, in preorder. -/
def positions : SnapNode → List GPoint
  | .nil => []
  | .node l r _ p => p :: (positions l ++ positions r)

/-- Positions of the snapshot nodes at a given depth below the snapshot
root (depth 0 is the root itself), from left to right. -/
def nodesAtDepth : SnapNode → Nat → List GPoint
  | .nil, _ => []
  | .node _ _ _ p, 0 => [p]
  | .node l r _ _, d + 1 => nodesAtDepth l d ++ nodesAtDepth r d

/-- Parent/child position pairs, one for every edge of a snapshot. -/
def parentChildPairs : SnapNode → List (GPoint × GPoint)
  | .nil => []
  | .node l r _ p =>
      (match l with
       | .nil => []
       | .node _ _ _ q => [(p, q)]) ++
      (match r with
       | .nil => []
       | .node _ _ _ q => [(p, q)]) ++
      parentChildPairs l ++ parentChildPairs r

/-- Bare tree shape, used to state that layout depends on structure
alone. -/
inductive Shape : Type where
  | nil : Shape
  | node (left right : Shape) : Shape
  deriving DecidableEq

/-- Shape of a snapshot tree. -/
def shapeOf : SnapNode → Shape
  | .nil => .nil
  | .node l r _ _ => .node (shapeOf l) (shapeOf r)

/-- Shape of a caller tree. -/
def shapeOfB {α : Type} : BTree α → Shape
  | .nil => .nil
  | .node _ l r => .node (shapeOfB l) (shapeOfB r)

/-- A snapshot with its label producers erased: structure plus positions
only.  Two snapshots with equal `stripLabels` images assign identical
positions to corresponding nodes. -/
inductive PlacedTree : Type where
  | nil : PlacedTree
  | node (left right : PlacedTree) (position : GPoint) : PlacedTree
  deriving DecidableEq

/-- Erase the label producers of a snapshot. -/
def stripLabels : SnapNode → PlacedTree
  | .nil => .nil
  | .node l r _ p => .node (stripLabels l) (stripLabels r) p

/-- Intermediate node structure for building the layout (`struct
ThreadedNode` of the header).  `nil` models a null `unique_ptr`.
Besides the two children and the two signed hull distances of the header
(defaulted to minus/plus half the minimum separation), the model records
`leftOffset`/`rightOffset`: the horizontal position of each child
relative to this node, i.e. the shifts that the placement pass follows.
The header's `leftHull`/`rightHull` pointers are an in-place traversal
device for the merge walk; the model computes the hulls functionally
from the recorded offsets (`leftContour`/`rightContour` below), as the
spec's glossary defines them. -/
inductive ThreadedNode : Type where
  | nil : ThreadedNode
  | mk (leftChild rightChild : ThreadedNode)
       (leftOffset rightOffset : ℚ)
       (leftHullDistance rightHullDistance : ℚ) : ThreadedNode
  deriving DecidableEq

/-- Result from one level of the layout recursion (`struct
ThreadedLayout`): the subtree root plus its extreme-left and
extreme-right leaves and their horizontal offsets relative to the root.
A `nil` root (with `nil` extremes) is the empty layout. -/
structure ThreadedLayout where
  root : ThreadedNode
  extremeLeft : ThreadedNode
  extremeLeftOffset : ℚ
  extremeRight : ThreadedNode
  extremeRightOffset : ℚ
  deriving DecidableEq

/-- Left child of a threaded node (`nil` for the `nil` node). -/
def ThreadedNode.left : ThreadedNode → ThreadedNode
  | .nil => .nil
  | .mk l _ _ _ _ _ => l

/-- Right child of a threaded node. -/
def ThreadedNode.right : ThreadedNode → ThreadedNode
  | .nil => .nil
  | .mk _ r _ _ _ _ => r

/-- Offsets of the nodes at a given depth of a laid-out subtree,
relative to the subtree root and from left to right.  Depth 0 is the
root itself, at relative offset 0. -/
def levelOffsets : ThreadedNode → Nat → List ℚ
  | .nil, _ => []
  | .mk _ _ _ _ _ _, 0 => [0]
  | .mk tl tr lo ro _ _, d + 1 =>
      (levelOffsets tl d).map (· + lo) ++ (levelOffsets tr d).map (· + ro)

/-- Pointwise combination of two lists that keeps the tail of the longer
list once the shorter one is exhausted — exactly how a merged hull
continues along the surviving chain after the splice. -/
def zipWithTail (f : ℚ → ℚ → ℚ) : List ℚ → List ℚ → List ℚ
  | [], bs => bs
  | a :: as, [] => a :: as
  | a :: as, b :: bs => f a b :: zipWithTail f as bs

/-- Modelled from the spec: the left hull ("the sequence of leftmost
node positions at each depth of a laid-out subtree", glossary) of a
threaded subtree, as offsets relative to its root. -/
def leftContour : ThreadedNode → List ℚ
  | .nil => []
  | .mk tl tr lo ro _ _ =>
      0 :: zipWithTail min ((leftContour tl).map (· + lo))
            ((leftContour tr).map (· + ro))

/-- Modelled from the spec: the right hull of a threaded subtree, as
offsets relative to its root. -/
def rightContour : ThreadedNode → List ℚ
  | .nil => []
  | .mk tl tr lo ro _ _ =>
      0 :: zipWithTail max ((rightContour tl).map (· + lo))
            ((rightContour tr).map (· + ro))

/-- Modelled from the spec (4.2, merge steps 1-2): walking the left
child's right hull and the right child's left hull level by level, the
entry for a compared level is the minimal shift of the whole right
subtree that keeps the two hull nodes of that level at least the minimum
separation apart, given that the subtree roots end up `shift` apart. -/
def requiredShifts : List ℚ → List ℚ → List ℚ
  | a :: as, b :: bs => (kMinSeparation + a - b) :: requiredShifts as bs
  | _, _ => []

/-- Modelled from the spec (4.2, merge step 3): the single shift applied
to the whole right subtree is the maximum of all per-level required
shifts.  The fold's initial value 0 is never the result: the first
compared level (the two child roots) always requires `kMinSeparation`,
which is positive. -/
def shiftFor (lt rt : ThreadedNode) : ℚ :=
  (requiredShifts (rightContour lt) (leftContour rt)).foldl max 0

/-- Modelled from the spec: `layOutTree` (declared in the header, body
in the implementation file not among the visible sources).  Bottom-up
recursion over a snapshot subtree producing a `ThreadedLayout`:
- null input gives the empty layout;
- a leaf gives a single `ThreadedNode` with the header's default hull
  distances, both extremes the node itself at offset 0;
- a node with exactly one child reuses the child's layout directly at
  offset 0 (spec 4.2 missing-child case; spec 8 requires a one-sided
  chain to keep x constant, a degenerate straight hull);
- a node with two children computes the merge shift and places the left
  subtree at minus half the shift and the right subtree at plus half the
  shift, symmetric around the new parent at relative 0; the new extremes
  are the children's outer extremes adjusted by the half-shift. -/
def layOutTree : SnapNode → ThreadedLayout
  | .nil => ⟨.nil, .nil, 0, .nil, 0⟩
  | .node l r _ _ =>
      let L := layOutTree l
      let R := layOutTree r
      match L.root, R.root with
      | .nil, .nil =>
          let n := ThreadedNode.mk .nil .nil 0 0
            (-(kMinSeparation / 2)) (kMinSeparation / 2)
          ⟨n, n, 0, n, 0⟩
      | .nil, .mk a b c d e f =>
          let n := ThreadedNode.mk .nil (.mk a b c d e f) 0 0 0 0
          ⟨n, R.extremeLeft, R.extremeLeftOffset,
             R.extremeRight, R.extremeRightOffset⟩
      | .mk a b c d e f, .nil =>
          let n := ThreadedNode.mk (.mk a b c d e f) .nil 0 0 0 0
          ⟨n, L.extremeLeft, L.extremeLeftOffset,
             L.extremeRight, L.extremeRightOffset⟩
      | .mk a b c d e f, .mk a' b' c' d' e' f' =>
          let lt := ThreadedNode.mk a b c d e f
          let rt := ThreadedNode.mk a' b' c' d' e' f'
          let s := shiftFor lt rt
          let n := ThreadedNode.mk lt rt (-(s / 2)) (s / 2) (-(s / 2)) (s / 2)
          ⟨n, L.extremeLeft, L.extremeLeftOffset - s / 2,
             R.extremeRight, R.extremeRightOffset + s / 2⟩

/-- Modelled from the spec: `placeNodesIn` (4.3).  Synchronized walk
over the snapshot and the threaded tree, carrying the running absolute
x (the sum of the recorded relative offsets from the root down) and the
absolute y (depth times vertical spacing); writes the resulting point
into each snapshot node.  If the threaded tree has no node matching the
snapshot node the subtree is left untouched (this never happens for the
trees `layOutTree` produces). -/
def placeNodesIn : SnapNode → ThreadedNode → ℚ → ℚ → SnapNode
  | .nil, _, _, _ => .nil
  | .node l r lab _, .mk tl tr lo ro _ _, x, y =>
      .node (placeNodesIn l tl (x + lo) (y + kVerticalSpacing))
            (placeNodesIn r tr (x + ro) (y + kVerticalSpacing))
            lab ⟨x, y⟩
  | .node l r lab p, .nil, _, _ => .node l r lab p

/-- Number of position writes `placeNodesIn` performs: one per snapshot
node it actually visits in step with a threaded node. -/
def placeCount : SnapNode → ThreadedNode → Nat
  | .nil, _ => 0
  | .node l r _ _, .mk tl tr _ _ _ _ => 1 + placeCount l tl + placeCount r tr
  | .node _ _ _ _, .nil => 0

/-- Modelled from the spec: `performLayout` runs the layout engine on
the snapshot and writes absolute positions, the root at the origin. -/
def performLayout (root : SnapNode) : SnapNode :=
  placeNodesIn root (layOutTree root).root 0 0

/-- Modelled from the spec: `boundsFor` (4.4).  One pass over all
positioned nodes computing the minimal and maximal x and y, each
expanded outward by the node radius; an empty tree yields the zero
rectangle. -/
def boundsFor (root : SnapNode) : GRectangle :=
  match positions root with
  | [] => ⟨0, 0, 0, 0⟩
  | p :: ps =>
      let minX := (ps.map GPoint.x).foldl min p.x
      let maxX := (ps.map GPoint.x).foldl max p.x
      let minY := (ps.map GPoint.y).foldl min p.y
      let maxY := (ps.map GPoint.y).foldl max p.y
      ⟨minX - kNodeRadius, minY - kNodeRadius,
       (maxX - minX) + 2 * kNodeRadius, (maxY - minY) + 2 * kNodeRadius⟩

/-- Structural agreement between a snapshot tree and a threaded tree:
the synchronized placement walk visits every snapshot node exactly when
this holds. -/
def structMatch : SnapNode → ThreadedNode → Prop
  | .nil, .nil => True
  | .node l r _ _, .mk tl tr _ _ _ _ => structMatch l tl ∧ structMatch r tr
  | .nil, .mk _ _ _ _ _ _ => False
  | .node _ _ _ _, .nil => False

/-- The horizontal separation relation between two offsets listed left
to right at one level. -/
def sepRel (a b : ℚ) : Prop := a + kMinSeparation ≤ b

/-- The merge contract of spec 4.2 for an internal node whose children
were laid out as `lt` and `rt` and whose combined threaded root is `n`:
the parent sits at relative 0 with the left subtree's origin at minus
half the shift and the right subtree's origin at plus half the shift;
the applied shift is the maximum of the per-level required shifts (an
element of the list that dominates every element); and that one shift
keeps every compared pair of hull levels at least the minimum separation
apart. -/
def mergeSpec (lt rt n : ThreadedNode) : Prop :=
  n = ThreadedNode.mk lt rt (-(shiftFor lt rt / 2)) (shiftFor lt rt / 2)
        (-(shiftFor lt rt / 2)) (shiftFor lt rt / 2) ∧
  shiftFor lt rt ∈ requiredShifts (rightContour lt) (leftContour rt) ∧
  (∀ z ∈ requiredShifts (rightContour lt) (leftContour rt), z ≤ shiftFor lt rt) ∧
  (∀ (d : Nat) (cr cl : ℚ), (rightContour lt)[d]? = some cr →
      (leftContour rt)[d]? = some cl →
      kMinSeparation ≤ (cl + shiftFor lt rt / 2) - (cr - shiftFor lt rt / 2)) ∧
  levelOffsets n 0 = [0]

/-- A concrete single-leaf snapshot, used by witnesses. -/
def leafSnap : SnapNode := .node .nil .nil (fun _ => "") ⟨0, 0⟩

/-- A concrete snapshot of a root with two leaf children, used by
witnesses. -/
def twoLeafSnap : SnapNode := .node leafSnap leafSnap (fun _ => "") ⟨0, 0⟩

/-! Helper lemmas. -/

theorem kMinSeparation_nonneg : 0 ≤ kMinSeparation := by norm_num [kMinSeparation]

theorem sepRel_trans {a b c : ℚ} (h1 : sepRel a b) (h2 : sepRel b c) : sepRel a c := by
  have := kMinSeparation_nonneg
  unfold sepRel at *
  linarith

theorem sepRel_shift {a b : ℚ} (c : ℚ) (h : sepRel a b) : sepRel (a + c) (b + c) := by
  unfold sepRel at *
  linarith

theorem chain'_sepRel_map {l : List ℚ} (c : ℚ) (h : List.Chain' sepRel l) :
    List.Chain' sepRel (l.map (· + c)) := by
  rw [List.chain'_map]
  exact h.imp fun a b hab => sepRel_shift c hab

theorem zipWithTail_get_left {f : ℚ → ℚ → ℚ} {R : ℚ → ℚ → Prop}
    (hrefl : ∀ x, R x x) (hf : ∀ x y, R (f x y) x) :
    ∀ (as bs : List ℚ) (d : Nat) (a : ℚ), as[d]? = some a →
      ∃ c, (zipWithTail f as bs)[d]? = some c ∧ R c a
  | [], _, d, a, h => by simp at h
  | a' :: as, [], d, a, h => ⟨a, by simpa [zipWithTail] using h, hrefl a⟩
  | a' :: as, b :: bs, 0, a, h => by
      rw [List.getElem?_cons_zero, Option.some.injEq] at h
      exact ⟨f a' b, by simp [zipWithTail], h ▸ hf a' b⟩
  | a' :: as, b :: bs, d + 1, a, h => by
      rw [List.getElem?_cons_succ] at h
      obtain ⟨c, hc, hr⟩ := zipWithTail_get_left hrefl hf as bs d a h
      exact ⟨c, by simpa [zipWithTail] using hc, hr⟩

theorem zipWithTail_get_right {f : ℚ → ℚ → ℚ} {R : ℚ → ℚ → Prop}
    (hrefl : ∀ x, R x x) (hf : ∀ x y, R (f x y) y) :
    ∀ (as bs : List ℚ) (d : Nat) (b : ℚ), bs[d]? = some b →
      ∃ c, (zipWithTail f as bs)[d]? = some c ∧ R c b
  | [], bs, d, b, h => ⟨b, by simpa [zipWithTail] using h, hrefl b⟩
  | a' :: as, [], d, b, h => by simp at h
  | a' :: as, b' :: bs, 0, b, h => by
      rw [List.getElem?_cons_zero, Option.some.injEq] at h
      exact ⟨f a' b', by simp [zipWithTail], h ▸ hf a' b'⟩
  | a' :: as, b' :: bs, d + 1, b, h => by
      rw [List.getElem?_cons_succ] at h
      obtain ⟨c, hc, hr⟩ := zipWithTail_get_right hrefl hf as bs d b h
      exact ⟨c, by simpa [zipWithTail] using hc, hr⟩

theorem leftContour_le : ∀ (t : ThreadedNode) (d : Nat) (x : ℚ),
    x ∈ levelOffsets t d → ∃ c, (leftContour t)[d]? = some c ∧ c ≤ x
  | .nil, d, x, h => by simp [levelOffsets] at h
  | .mk tl tr lo ro hl hr, 0, x, h => by
      simp only [levelOffsets, List.mem_singleton] at h
      exact ⟨0, by simp [leftContour], le_of_eq h.symm⟩
  | .mk tl tr lo ro hl hr, d + 1, x, h => by
      simp only [levelOffsets, List.mem_append, List.mem_map] at h
      have hcons : (leftContour (.mk tl tr lo ro hl hr))[d + 1]? =
          (zipWithTail min ((leftContour tl).map (· + lo))
            ((leftContour tr).map (· + ro)))[d]? := by
        simp [leftContour]
      rcases h with ⟨o, ho, rfl⟩ | ⟨o, ho, rfl⟩
      · obtain ⟨c, hc, hle⟩ := leftContour_le tl d o ho
        have hm : ((leftContour tl).map (· + lo))[d]? = some (c + lo) := by
          rw [List.getElem?_map, hc]; rfl
        obtain ⟨c', hc', hle'⟩ :=
          zipWithTail_get_left (f := min) (R := (· ≤ ·)) le_refl
            (fun x y => min_le_left x y) _ ((leftContour tr).map (· + ro)) d _ hm
        exact ⟨c', hcons ▸ hc', le_trans hle' (by linarith)⟩
      · obtain ⟨c, hc, hle⟩ := leftContour_le tr d o ho
        have hm : ((leftContour tr).map (· + ro))[d]? = some (c + ro) := by
          rw [List.getElem?_map, hc]; rfl
        obtain ⟨c', hc', hle'⟩ :=
          zipWithTail_get_right (f := min) (R := (· ≤ ·)) le_refl
            (fun x y => min_le_right x y) ((leftContour tl).map (· + lo)) _ d _ hm
        exact ⟨c', hcons ▸ hc', le_trans hle' (by linarith)⟩

theorem le_rightContour : ∀ (t : ThreadedNode) (d : Nat) (x : ℚ),
    x ∈ levelOffsets t d → ∃ c, (rightContour t)[d]? = some c ∧ x ≤ c
  | .nil, d, x, h => by simp [levelOffsets] at h
  | .mk tl tr lo ro hl hr, 0, x, h => by
      simp only [levelOffsets, List.mem_singleton] at h
      exact ⟨0, by simp [rightContour], le_of_eq h⟩
  | .mk tl tr lo ro hl hr, d + 1, x, h => by
      simp only [levelOffsets, List.mem_append, List.mem_map] at h
      have hcons : (rightContour (.mk tl tr lo ro hl hr))[d + 1]? =
          (zipWithTail max ((rightContour tl).map (· + lo))
            ((rightContour tr).map (· + ro)))[d]? := by
        simp [rightContour]
      rcases h with ⟨o, ho, rfl⟩ | ⟨o, ho, rfl⟩
      · obtain ⟨c, hc, hle⟩ := le_rightContour tl d o ho
        have hm : ((rightContour tl).map (· + lo))[d]? = some (c + lo) := by
          rw [List.getElem?_map, hc]; rfl
        obtain ⟨c', hc', hle'⟩ :=
          zipWithTail_get_left (f := max) (R := fun u v => v ≤ u) le_refl
            (fun x y => le_max_left x y) _ ((rightContour tr).map (· + ro)) d _ hm
        exact ⟨c', hcons ▸ hc', le_trans (by linarith) hle'⟩
      · obtain ⟨c, hc, hle⟩ := le_rightContour tr d o ho
        have hm : ((rightContour tr).map (· + ro))[d]? = some (c + ro) := by
          rw [List.getElem?_map, hc]; rfl
        obtain ⟨c', hc', hle'⟩ :=
          zipWithTail_get_right (f := max) (R := fun u v => v ≤ u) le_refl
            (fun x y => le_max_right x y) ((rightContour tl).map (· + lo)) _ d _ hm
        exact ⟨c', hcons ▸ hc', le_trans (by linarith) hle'⟩

theorem requiredShifts_get : ∀ (as bs : List ℚ) (d : Nat) (a b : ℚ),
    as[d]? = some a → bs[d]? = some b →
      (requiredShifts as bs)[d]? = some (kMinSeparation + a - b)
  | [], _, d, a, b, ha, _ => by simp at ha
  | _ :: _, [], d, a, b, _, hb => by simp at hb
  | a' :: as, b' :: bs, 0, a, b, ha, hb => by
      rw [List.getElem?_cons_zero, Option.some.injEq] at ha hb
      simp [requiredShifts, ha, hb]
  | a' :: as, b' :: bs, d + 1, a, b, ha, hb => by
      rw [List.getElem?_cons_succ] at ha hb
      simpa [requiredShifts] using requiredShifts_get as bs d a b ha hb

theorem foldl_max_init_le : ∀ (l : List ℚ) {a b : ℚ}, a ≤ b → a ≤ l.foldl max b
  | [], _, _, h => h
  | c :: l, _, b, h => foldl_max_init_le l (le_trans h (le_max_left b c))

theorem le_foldl_max : ∀ (l : List ℚ) (a x : ℚ), x ∈ l → x ≤ l.foldl max a
  | [], _, _, h => by simp at h
  | c :: l, a, x, h => by
      rcases List.mem_cons.mp h with rfl | h
      · exact foldl_max_init_le l (le_max_right a x)
      · exact le_foldl_max l (max a c) x h

theorem foldl_max_mem : ∀ (l : List ℚ) (a : ℚ), l.foldl max a = a ∨ l.foldl max a ∈ l
  | [], a => Or.inl rfl
  | c :: l, a => by
      rcases foldl_max_mem l (max a c) with h | h
      · rcases max_cases a c with ⟨he, _⟩ | ⟨he, _⟩
        · exact Or.inl (by rw [List.foldl_cons, h, he])
        · exact Or.inr (by rw [List.foldl_cons, h, he]; exact List.mem_cons_self c l)
      · exact Or.inr (List.mem_cons_of_mem c h)

theorem shiftFor_ge {lt rt : ThreadedNode} {d : Nat} {cr cl : ℚ}
    (hcr : (rightContour lt)[d]? = some cr)
    (hcl : (leftContour rt)[d]? = some cl) :
    kMinSeparation + cr - cl ≤ shiftFor lt rt := by
  have hmem : kMinSeparation + cr - cl ∈
      requiredShifts (rightContour lt) (leftContour rt) :=
    List.getElem?_mem (requiredShifts_get _ _ d cr cl hcr hcl)
  exact le_foldl_max _ 0 _ hmem

theorem chain'_levelOffsets (s : SnapNode) :
    ∀ d : Nat, List.Chain' sepRel (levelOffsets (layOutTree s).root d) := by
  induction s with
  | nil => intro d; simp [layOutTree, levelOffsets]
  | node l r lab p ihl ihr =>
    intro d
    cases hL : (layOutTree l).root with
    | nil =>
      cases hR : (layOutTree r).root with
      | nil =>
        have hroot : (layOutTree (SnapNode.node l r lab p)).root =
            ThreadedNode.mk .nil .nil 0 0 (-(kMinSeparation / 2)) (kMinSeparation / 2) := by
          simp only [layOutTree]
          rw [hL, hR]
        rw [hroot]
        cases d with
        | zero => simp [levelOffsets]
        | succ d => simp [levelOffsets]
      | mk a b c d' e f =>
        have hroot : (layOutTree (SnapNode.node l r lab p)).root =
            ThreadedNode.mk .nil (.mk a b c d' e f) 0 0 0 0 := by
          simp only [layOutTree]
          rw [hL, hR]
        rw [hroot]
        cases d with
        | zero => simp [levelOffsets]
        | succ d =>
          simp only [levelOffsets, List.map_nil, List.nil_append]
          exact chain'_sepRel_map 0 (hR ▸ ihr d)
    | mk a b c d' e f =>
      cases hR : (layOutTree r).root with
      | nil =>
        have hroot : (layOutTree (SnapNode.node l r lab p)).root =
            ThreadedNode.mk (.mk a b c d' e f) .nil 0 0 0 0 := by
          simp only [layOutTree]
          rw [hL, hR]
        rw [hroot]
        cases d with
        | zero => simp [levelOffsets]
        | succ d =>
          simp only [levelOffsets, List.map_nil, List.append_nil]
          exact chain'_sepRel_map 0 (hL ▸ ihl d)
      | mk a' b' c' d'' e' f' =>
        have hroot : (layOutTree (SnapNode.node l r lab p)).root =
            ThreadedNode.mk (.mk a b c d' e f) (.mk a' b' c' d'' e' f')
              (-(shiftFor (.mk a b c d' e f) (.mk a' b' c' d'' e' f') / 2))
              (shiftFor (.mk a b c d' e f) (.mk a' b' c' d'' e' f') / 2)
              (-(shiftFor (.mk a b c d' e f) (.mk a' b' c' d'' e' f') / 2))
              (shiftFor (.mk a b c d' e f) (.mk a' b' c' d'' e' f') / 2) := by
          simp only [layOutTree]
          rw [hL, hR]
        rw [hroot]
        cases d with
        | zero => simp [levelOffsets]
        | succ d =>
          simp only [levelOffsets]
          rw [List.chain'_append]
          refine ⟨chain'_sepRel_map _ (hL ▸ ihl d), chain'_sepRel_map _ (hR ▸ ihr d), ?_⟩
          intro xv hx yv hy
          obtain ⟨ox, hox, rfl⟩ := List.mem_map.mp (List.mem_of_mem_getLast? hx)
          obtain ⟨oy, hoy, rfl⟩ := List.mem_map.mp (List.mem_of_mem_head? hy)
          obtain ⟨cr, hcr, hcr'⟩ := le_rightContour _ d ox hox
          obtain ⟨cl, hcl, hcl'⟩ := leftContour_le _ d oy hoy
          have hs := shiftFor_ge hcr hcl
          unfold sepRel
          linarith

theorem structMatch_layOutTree (s : SnapNode) : structMatch s (layOutTree s).root := by
  induction s with
  | nil => exact trivial
  | node l r lab p ihl ihr =>
    cases hL : (layOutTree l).root with
    | nil =>
      cases hR : (layOutTree r).root with
      | nil =>
        have hroot : (layOutTree (SnapNode.node l r lab p)).root =
            ThreadedNode.mk .nil .nil 0 0 (-(kMinSeparation / 2)) (kMinSeparation / 2) := by
          simp only [layOutTree]
          rw [hL, hR]
        rw [hroot]
        exact ⟨hL ▸ ihl, hR ▸ ihr⟩
      | mk a b c d' e f =>
        have hroot : (layOutTree (SnapNode.node l r lab p)).root =
            ThreadedNode.mk .nil (.mk a b c d' e f) 0 0 0 0 := by
          simp only [layOutTree]
          rw [hL, hR]
        rw [hroot]
        exact ⟨hL ▸ ihl, hR ▸ ihr⟩
    | mk a b c d' e f =>
      cases hR : (layOutTree r).root with
      | nil =>
        have hroot : (layOutTree (SnapNode.node l r lab p)).root =
            ThreadedNode.mk (.mk a b c d' e f) .nil 0 0 0 0 := by
          simp only [layOutTree]
          rw [hL, hR]
        rw [hroot]
        exact ⟨hL ▸ ihl, hR ▸ ihr⟩
      | mk a' b' c' d'' e' f' =>
        have hroot : (layOutTree (SnapNode.node l r lab p)).root =
            ThreadedNode.mk (.mk a b c d' e f) (.mk a' b' c' d'' e' f')
              (-(shiftFor (.mk a b c d' e f) (.mk a' b' c' d'' e' f') / 2))
              (shiftFor (.mk a b c d' e f) (.mk a' b' c' d'' e' f') / 2)
              (-(shiftFor (.mk a b c d' e f) (.mk a' b' c' d'' e' f') / 2))
              (shiftFor (.mk a b c d' e f) (.mk a' b' c' d'' e' f') / 2) := by
          simp only [layOutTree]
          rw [hL, hR]
        rw [hroot]
        exact ⟨hL ▸ ihl, hR ▸ ihr⟩

theorem nodesAtDepth_place (s : SnapNode) :
    ∀ (t : ThreadedNode) (x y : ℚ) (d : Nat), structMatch s t →
      nodesAtDepth (placeNodesIn s t x y) d =
        (levelOffsets t d).map (fun o => ⟨x + o, y + d * kVerticalSpacing⟩) := by
  induction s with
  | nil =>
    intro t x y d h
    cases t with
    | nil => simp [placeNodesIn, nodesAtDepth, levelOffsets]
    | mk tl tr lo ro hl hr => exact absurd h not_false
  | node l r lab p ihl ihr =>
    intro t x y d h
    cases t with
    | nil => exact absurd h not_false
    | mk tl tr lo ro hl hr =>
      obtain ⟨h1, h2⟩ := h
      cases d with
      | zero =>
        simp only [placeNodesIn, nodesAtDepth, levelOffsets, List.map_cons, List.map_nil]
        norm_num
      | succ d =>
        simp only [placeNodesIn, nodesAtDepth, levelOffsets, List.map_append, List.map_map,
          ihl tl (x + lo) (y + kVerticalSpacing) d h1,
          ihr tr (x + ro) (y + kVerticalSpacing) d h2]
        refine congrArg₂ (· ++ ·) (List.map_congr_left ?_) (List.map_congr_left ?_) <;>
          · intro o _
            simp only [Function.comp_apply, GPoint.mk.injEq]
            constructor
            · ring
            · push_cast
              ring

theorem placeCount_eq_size : ∀ (s : SnapNode) (t : ThreadedNode),
    structMatch s t → placeCount s t = size s
  | .nil, .nil, _ => rfl
  | .nil, .mk _ _ _ _ _ _, h => absurd h not_false
  | .node _ _ _ _, .nil, h => absurd h not_false
  | .node l r lab p, .mk tl tr lo ro hl hr, h => by
      obtain ⟨h1, h2⟩ := h
      simp [placeCount, size, placeCount_eq_size l tl h1, placeCount_eq_size r tr h2]

theorem size_placeNodesIn : ∀ (s : SnapNode) (t : ThreadedNode) (x y : ℚ),
    size (placeNodesIn s t x y) = size s
  | .nil, _, _, _ => rfl
  | .node l r lab p, .nil, x, y => rfl
  | .node l r lab p, .mk tl tr lo ro hl hr, x, y => by
      simp [placeNodesIn, size, size_placeNodesIn l tl, size_placeNodesIn r tr]

theorem positions_length : ∀ s : SnapNode, (positions s).length = size s
  | .nil => rfl
  | .node l r lab p => by
      simp [positions, size, positions_length l, positions_length r]
      omega

theorem layOutTree_node_root_ne_nil (l r : SnapNode) (lab : Unit → String) (p : GPoint) :
    (layOutTree (SnapNode.node l r lab p)).root ≠ .nil := by
  cases hL : (layOutTree l).root with
  | nil =>
    cases hR : (layOutTree r).root with
    | nil => simp only [layOutTree]; rw [hL, hR]; simp
    | mk a b c d' e f => simp only [layOutTree]; rw [hL, hR]; simp
  | mk a b c d' e f =>
    cases hR : (layOutTree r).root with
    | nil => simp only [layOutTree]; rw [hL, hR]; simp
    | mk a' b' c' d'' e' f' => simp only [layOutTree]; rw [hL, hR]; simp

theorem parentChildPairs_place (s : SnapNode) : ∀ (t : ThreadedNode) (x y : ℚ),
    structMatch s t → ∀ pq ∈ parentChildPairs (placeNodesIn s t x y),
      pq.2.y = pq.1.y + kVerticalSpacing := by
  induction s with
  | nil =>
    intro t x y h pq hpq
    cases t with
    | nil => simp [placeNodesIn, parentChildPairs] at hpq
    | mk tl tr lo ro hl hr => exact absurd h not_false
  | node l r lab p ihl ihr =>
    intro t x y h pq hpq
    cases t with
    | nil => exact absurd h not_false
    | mk tl tr lo ro hl hr =>
      obtain ⟨h1, h2⟩ := h
      simp only [placeNodesIn, parentChildPairs, List.append_assoc, List.mem_append] at hpq
      rcases hpq with hpq | hpq | hpq | hpq
      · cases l with
        | nil => simp [placeNodesIn] at hpq
        | node ll rl labl pl =>
          cases tl with
          | nil => exact absurd h1 not_false
          | mk a b c d' e f =>
            simp only [placeNodesIn, List.mem_singleton] at hpq
            rw [hpq]
      · cases r with
        | nil => simp [placeNodesIn] at hpq
        | node lr rr labr pr =>
          cases tr with
          | nil => exact absurd h2 not_false
          | mk a b c d' e f =>
            simp only [placeNodesIn, List.mem_singleton] at hpq
            rw [hpq]
      · exact ihl tl (x + lo) (y + kVerticalSpacing) h1 pq hpq
      · exact ihr tr (x + ro) (y + kVerticalSpacing) h2 pq hpq

theorem layOutTree_shape_eq (s1 : SnapNode) : ∀ s2 : SnapNode,
    shapeOf s1 = shapeOf s2 → layOutTree s1 = layOutTree s2 := by
  induction s1 with
  | nil =>
    intro s2 h
    cases s2 with
    | nil => rfl
    | node l r lab p => simp [shapeOf] at h
  | node l r lab p ihl ihr =>
    intro s2 h
    cases s2 with
    | nil => simp [shapeOf] at h
    | node l2 r2 lab2 p2 =>
      simp only [shapeOf, Shape.node.injEq] at h
      simp only [layOutTree, ihl l2 h.1, ihr r2 h.2]

theorem stripLabels_place_eq (s1 : SnapNode) : ∀ (s2 : SnapNode) (t : ThreadedNode) (x y : ℚ),
    shapeOf s1 = shapeOf s2 → structMatch s1 t →
      stripLabels (placeNodesIn s1 t x y) = stripLabels (placeNodesIn s2 t x y) := by
  induction s1 with
  | nil =>
    intro s2 t x y h _
    cases s2 with
    | nil => rfl
    | node l r lab p => simp [shapeOf] at h
  | node l r lab p ihl ihr =>
    intro s2 t x y h hm
    cases s2 with
    | nil => simp [shapeOf] at h
    | node l2 r2 lab2 p2 =>
      simp only [shapeOf, Shape.node.injEq] at h
      cases t with
      | nil => exact absurd hm not_false
      | mk tl tr lo ro hl hr =>
        obtain ⟨hm1, hm2⟩ := hm
        simp only [placeNodesIn, stripLabels, PlacedTree.node.injEq]
        exact ⟨ihl l2 tl _ _ h.1 hm1, ihr r2 tr _ _ h.2 hm2, trivial⟩

/-! Claim theorems. -/

/-- C1: for every finite binary tree laid out by the engine and every
pair of distinct nodes at the same depth, the horizontal distance
between their computed positions is at least the minimum separation
`kMinSeparation`. -/
theorem claim_minimum_separation (s : SnapNode) (d i j : Nat) (hij : i ≠ j)
    (hi : i < (nodesAtDepth (performLayout s) d).length)
    (hj : j < (nodesAtDepth (performLayout s) d).length) :
    kMinSeparation ≤
      |((nodesAtDepth (performLayout s) d).getD i ⟨0, 0⟩).x -
        ((nodesAtDepth (performLayout s) d).getD j ⟨0, 0⟩).x| := by
  have hmap : nodesAtDepth (performLayout s) d =
      (levelOffsets (layOutTree s).root d).map
        (fun o => ⟨0 + o, 0 + d * kVerticalSpacing⟩) :=
    nodesAtDepth_place s _ 0 0 d (structMatch_layOutTree s)
  have hpw : List.Pairwise sepRel (levelOffsets (layOutTree s).root d) := by
    haveI : IsTrans ℚ sepRel := ⟨fun a b c => sepRel_trans⟩
    exact List.chain'_iff_pairwise.mp (chain'_levelOffsets s d)
  rw [List.pairwise_iff_get] at hpw
  have hlen : (nodesAtDepth (performLayout s) d).length =
      (levelOffsets (layOutTree s).root d).length := by
    rw [hmap, List.length_map]
  rw [List.getD_eq_getElem _ _ hi, List.getD_eq_getElem _ _ hj]
  have hi' : i < (levelOffsets (layOutTree s).root d).length := hlen ▸ hi
  have hj' : j < (levelOffsets (layOutTree s).root d).length := hlen ▸ hj
  simp only [hmap, List.getElem_map]
  rcases lt_or_gt_of_ne hij with hlt | hgt
  · have := hpw ⟨i, hi'⟩ ⟨j, hj'⟩ hlt
    unfold sepRel at this
    simp only [List.get_eq_getElem] at this
    rw [abs_sub_comm]
    refine le_trans ?_ (le_abs_self _)
    linarith
  · have := hpw ⟨j, hj'⟩ ⟨i, hi'⟩ hgt
    unfold sepRel at this
    simp only [List.get_eq_getElem] at this
    refine le_trans ?_ (le_abs_self _)
    linarith

/-- Witness for C1: in the laid-out two-leaf tree the two depth-1 nodes
are exactly the minimum separation apart. -/
theorem claim_minimum_separation_witness :
    0 < (nodesAtDepth (performLayout twoLeafSnap) 1).length ∧
    1 < (nodesAtDepth (performLayout twoLeafSnap) 1).length ∧
    kMinSeparation ≤
      |((nodesAtDepth (performLayout twoLeafSnap) 1).getD 0 ⟨0, 0⟩).x -
        ((nodesAtDepth (performLayout twoLeafSnap) 1).getD 1 ⟨0, 0⟩).x| :=
  ⟨by decide, by decide,
    claim_minimum_separation twoLeafSnap 1 0 1 (by decide) (by decide) (by decide)⟩

/-- C2: when `layOutTree` merges the layouts of two children, the single
shift applied to the whole right subtree is the maximum of the per-level
required shifts over all compared hull levels, the parent is placed at
relative 0, and the subtree origins sit at minus/plus half the shift
(`mergeSpec`). -/
theorem claim_merge_shift_max (l r : SnapNode) (lab : Unit → String) (p : GPoint)
    (hl : (layOutTree l).root ≠ .nil) (hr : (layOutTree r).root ≠ .nil) :
    mergeSpec (layOutTree l).root (layOutTree r).root
      (layOutTree (SnapNode.node l r lab p)).root := by
  cases hL : (layOutTree l).root with
  | nil => exact absurd hL hl
  | mk a b c d' e f =>
    cases hR : (layOutTree r).root with
    | nil => exact absurd hR hr
    | mk a' b' c' d'' e' f' =>
      have hroot : (layOutTree (SnapNode.node l r lab p)).root =
          ThreadedNode.mk (.mk a b c d' e f) (.mk a' b' c' d'' e' f')
            (-(shiftFor (.mk a b c d' e f) (.mk a' b' c' d'' e' f') / 2))
            (shiftFor (.mk a b c d' e f) (.mk a' b' c' d'' e' f') / 2)
            (-(shiftFor (.mk a b c d' e f) (.mk a' b' c' d'' e' f') / 2))
            (shiftFor (.mk a b c d' e f) (.mk a' b' c' d'' e' f') / 2) := by
        simp only [layOutTree]
        rw [hL, hR]
      have hrc0 : (rightContour (ThreadedNode.mk a b c d' e f))[0]? = some 0 := by
        simp [rightContour]
      have hlc0 : (leftContour (ThreadedNode.mk a' b' c' d'' e' f'))[0]? = some 0 := by
        simp [leftContour]
      have hrs0 := requiredShifts_get _ _ 0 0 0 hrc0 hlc0
      have hk_mem : kMinSeparation ∈
          requiredShifts (rightContour (ThreadedNode.mk a b c d' e f))
            (leftContour (ThreadedNode.mk a' b' c' d'' e' f')) := by
        have : kMinSeparation + 0 - 0 = kMinSeparation := by ring
        exact List.getElem?_mem (this ▸ hrs0)
      have hk_le : kMinSeparation ≤
          shiftFor (ThreadedNode.mk a b c d' e f) (ThreadedNode.mk a' b' c' d'' e' f') :=
        le_foldl_max _ 0 _ hk_mem
      refine ⟨hroot, ?_, ?_, ?_, ?_⟩
      · rcases foldl_max_mem
          (requiredShifts (rightContour (ThreadedNode.mk a b c d' e f))
            (leftContour (ThreadedNode.mk a' b' c' d'' e' f'))) 0 with h0 | hmem
        · exfalso
          rw [shiftFor] at hk_le
          rw [h0] at hk_le
          norm_num [kMinSeparation] at hk_le
        · exact hmem
      · intro z hz
        exact le_foldl_max _ 0 z hz
      · intro d cr cl hcr hcl
        have := shiftFor_ge hcr hcl
        linarith
      · rw [hroot]
        rfl

/-- Witness for C2: merging two leaf layouts. -/
theorem claim_merge_shift_max_witness :
    (layOutTree leafSnap).root ≠ ThreadedNode.nil ∧
    mergeSpec (layOutTree leafSnap).root (layOutTree leafSnap).root
      (layOutTree (SnapNode.node leafSnap leafSnap (fun _ => "") ⟨0, 0⟩)).root :=
  ⟨layOutTree_node_root_ne_nil .nil .nil (fun _ => "") ⟨0, 0⟩,
    claim_merge_shift_max leafSnap leafSnap (fun _ => "") ⟨0, 0⟩
      (layOutTree_node_root_ne_nil .nil .nil (fun _ => "") ⟨0, 0⟩)
      (layOutTree_node_root_ne_nil .nil .nil (fun _ => "") ⟨0, 0⟩)⟩

/-- C3: the placement pass writes exactly one absolute position per node
reachable from the root: the number of position writes equals the number
of nodes, and the placed snapshot has as many stored positions as the
tree has nodes. -/
theorem claim_every_node_placed (s : SnapNode) :
    placeCount s (layOutTree s).root = size s ∧
    (positions (performLayout s)).length = size s := by
  constructor
  · exact placeCount_eq_size s _ (structMatch_layOutTree s)
  · rw [positions_length, performLayout, size_placeNodesIn]

/-- C4: in the placed tree, every node's absolute y-coordinate is its
depth times the vertical spacing, and every child's y-coordinate is
exactly its parent's y-coordinate plus the vertical spacing. -/
theorem claim_vertical_spacing (s : SnapNode) (d : Nat) (p : GPoint)
    (pq : GPoint × GPoint)
    (hp : p ∈ nodesAtDepth (performLayout s) d)
    (hpq : pq ∈ parentChildPairs (performLayout s)) :
    p.y = d * kVerticalSpacing ∧ pq.2.y = pq.1.y + kVerticalSpacing := by
  constructor
  · have hmap : nodesAtDepth (performLayout s) d =
        (levelOffsets (layOutTree s).root d).map
          (fun o => ⟨0 + o, 0 + d * kVerticalSpacing⟩) :=
      nodesAtDepth_place s _ 0 0 d (structMatch_layOutTree s)
    rw [hmap] at hp
    obtain ⟨o, _, rfl⟩ := List.mem_map.mp hp
    simp
  · exact parentChildPairs_place s _ 0 0 (structMatch_layOutTree s) pq hpq

/-- Witness for C4: the root of the laid-out two-leaf tree sits at depth
0 with y = 0, and its left child sits one vertical spacing below it. -/
theorem claim_vertical_spacing_witness :
    (⟨0, 0⟩ : GPoint) ∈ nodesAtDepth (performLayout twoLeafSnap) 0 ∧
    ((⟨0, 0⟩, ⟨-1, 1⟩) : GPoint × GPoint) ∈ parentChildPairs (performLayout twoLeafSnap) ∧
    ((⟨0, 0⟩ : GPoint).y = (0 : Nat) * kVerticalSpacing ∧
      ((⟨0, 0⟩, ⟨-1, 1⟩) : GPoint × GPoint).2.y =
        ((⟨0, 0⟩, ⟨-1, 1⟩) : GPoint × GPoint).1.y + kVerticalSpacing) :=
  ⟨by decide, by with_unfolding_all decide,
    claim_vertical_spacing twoLeafSnap 0 ⟨0, 0⟩ (⟨0, 0⟩, ⟨-1, 1⟩)
      (by decide) (by with_unfolding_all decide)⟩

/-- C5, counterexample: on a one-node tree the labeler is applied zero
times while `convert` builds the snapshot, not once per node as the
claim states. -/
theorem claim_labeler_buildtime_cex :
    (convertCounting (BTree.node 0 BTree.nil BTree.nil : BTree Nat) (fun _ => "")).2 ≠
      sizeB (BTree.node 0 BTree.nil BTree.nil : BTree Nat) := by
  decide

/-- C5, amended: `convert` applies the labeler zero times at
snapshot-build time; it stores a deferred producer per node, and
invoking each stored producer once applies the labeler exactly once to
the corresponding original node. -/
theorem claim_labeler_deferred {α : Type} (t : BTree α) (lab : Labeler α) :
    (convertCounting t lab).2 = 0 ∧
    (convertCounting t lab).1 = convert t lab ∧
    labelsOf (convert t lab) = (subtreesOf t).map lab := by
  induction t with
  | nil => exact ⟨rfl, rfl, rfl⟩
  | node v l r ihl ihr =>
    refine ⟨?_, ?_, ?_⟩
    · simp [convertCounting, ihl.1, ihr.1]
    · simp [convertCounting, convert, ihl.1, ihr.1, ihl.2.1, ihr.2.1]
    · simp [convert, labelsOf, subtreesOf, ihl.2.2, ihr.2.2]

/-- C6: `convert` maps null to null, and a non-null node to a snapshot
node wrapping the recursively converted children, a label producer that
when invoked calls the labeler on the original node, and the empty
(origin) position. -/
theorem claim_convert_recursion {α : Type} (lab : Labeler α) (v : α) (l r : BTree α) :
    convert (BTree.nil : BTree α) lab = SnapNode.nil ∧
    convert (BTree.node v l r) lab =
      SnapNode.node (convert l lab) (convert r lab)
        (fun _ => lab (BTree.node v l r)) ⟨0, 0⟩ ∧
    (fun _ : Unit => lab (BTree.node v l r)) () = lab (BTree.node v l r) :=
  ⟨rfl, rfl, rfl⟩

/-- C7: an empty input tree is a valid degenerate case: the snapshot is
empty, the pipeline succeeds with zero computed positions, and
`boundsFor` returns the zero-area rectangle. -/
theorem claim_empty_tree {α : Type} (lab : Labeler α) :
    convert (BTree.nil : BTree α) lab = SnapNode.nil ∧
    performLayout (convert (BTree.nil : BTree α) lab) = SnapNode.nil ∧
    positions (performLayout (convert (BTree.nil : BTree α) lab)) = [] ∧
    placeCount (convert (BTree.nil : BTree α) lab)
      (layOutTree (convert (BTree.nil : BTree α) lab)).root = 0 ∧
    boundsFor (performLayout (convert (BTree.nil : BTree α) lab)) = ⟨0, 0, 0, 0⟩ :=
  ⟨rfl, rfl, rfl, rfl, rfl⟩

/-- C8: layout is a pure function of tree shape: snapshots of identical
shape receive identical positions at corresponding nodes across
separate runs. -/
theorem claim_layout_pure (s1 s2 : SnapNode) (h : shapeOf s1 = shapeOf s2) :
    stripLabels (performLayout s1) = stripLabels (performLayout s2) := by
  have hL : layOutTree s1 = layOutTree s2 := layOutTree_shape_eq s1 s2 h
  unfold performLayout
  rw [← hL]
  exact stripLabels_place_eq s1 s2 _ 0 0 h (structMatch_layOutTree s1)

/-- Witness for C8: two leaves with different labels and different
pre-layout positions have equal shapes and get identical layouts. -/
theorem claim_layout_pure_witness :
    shapeOf leafSnap = shapeOf (SnapNode.node .nil .nil (fun _ => "other") ⟨5, 7⟩) ∧
    stripLabels (performLayout leafSnap) =
      stripLabels (performLayout (SnapNode.node .nil .nil (fun _ => "other") ⟨5, 7⟩)) :=
  ⟨rfl, claim_layout_pure leafSnap (SnapNode.node .nil .nil (fun _ => "other") ⟨5, 7⟩) rfl⟩

/-- C9: laying out a leaf produces a ThreadedNode with the default hull
distances (minus/plus half the minimum separation) and a ThreadedLayout
whose extreme-left and extreme-right are both that node itself at
offset 0. -/
theorem claim_leaf_layout (lab : Unit → String) (p : GPoint) :
    (layOutTree (SnapNode.node .nil .nil lab p)).root =
      ThreadedNode.mk .nil .nil 0 0 (-(kMinSeparation / 2)) (kMinSeparation / 2) ∧
    (layOutTree (SnapNode.node .nil .nil lab p)).extremeLeft =
      (layOutTree (SnapNode.node .nil .nil lab p)).root ∧
    (layOutTree (SnapNode.node .nil .nil lab p)).extremeLeftOffset = 0 ∧
    (layOutTree (SnapNode.node .nil .nil lab p)).extremeRight =
      (layOutTree (SnapNode.node .nil .nil lab p)).root ∧
    (layOutTree (SnapNode.node .nil .nil lab p)).extremeRightOffset = 0 :=
  ⟨rfl, rfl, rfl, rfl, rfl⟩

/-- C10: the snapshot built by `convert` is structurally isomorphic to
the input tree: equal shapes and, consequently, equally many nodes. -/
theorem claim_snapshot_iso {α : Type} (t : BTree α) (lab : Labeler α) :
    shapeOf (convert t lab) = shapeOfB t ∧ size (convert t lab) = sizeB t := by
  induction t with
  | nil => exact ⟨rfl, rfl⟩
  | node v l r ihl ihr =>
    exact ⟨by simp [convert, shapeOf, shapeOfB, ihl.1, ihr.1],
      by simp [convert, size, sizeB, ihl.2, ihr.2]⟩

end TreeDrawing
